import Mathlib

set_option autoImplicit false

/-!
Shallow embedding of `src/evaluate.py` (SPVNAS evaluation script).

The script's locally interesting logic is:
* directory setup: for `i in range(11)`, create `save_dir/<two-digit i>` when absent;
* model selection by substring of the lowercased `--name` argument;
* the per-scene inverse-mapping step that projects sparse voxel predictions
  back onto the original dense point indices;
* the packing `sem + (ins << 16)` of 32-bit labels and their serialization
  to a `.label` file (4 little-endian bytes per point);
* the output path `save_dir / parts[-3] / parts[-1].replace(".bin", ".label")`.

Tensors are embedded as lists: a sparse tensor's feature rows become a
`List` and the last column of its coordinate matrix (the batch index)
becomes a `List Nat`.  NumPy boolean-mask indexing becomes `maskSelect`,
fancy integer indexing becomes `fancyIndex` (out-of-range indices, which
NumPy rejects at runtime, are read with a default; theorems that depend on
the values carry in-range hypotheses).  The file system is a list of
existing directory paths; `os.makedirs` appends the requested path.
-/

namespace SpvnasEval

/-! ### Directory setup (evaluate.py lines 38-41) -/

/-- Embedding of the Python format `f"<braces>i:02d<braces>"` for the loop
counter: decimal digits, left-padded with `0` to width two. -/
def directory_name (i : Nat) : String :=
  if i < 10 then "0" ++ toString i else toString i

/-- The directory `args.save_dir + "/" + directory_name`. -/
def seq_dir (saveDir : String) (i : Nat) : String :=
  saveDir ++ "/" ++ directory_name i

/-- One loop body: `if not os.path.exists(p): os.makedirs(p)`, on a file
system modelled as the list of existing directory paths. -/
def ensure_dir (fs : List String) (p : String) : List String :=
  if p ∈ fs then fs else fs ++ [p]

/-- The whole setup loop `for i in range(11)`. -/
def setup_dirs (saveDir : String) (fs : List String) : List String :=
  (List.range 11).foldl (fun s i => ensure_dir s (seq_dir saveDir i)) fs

/-! ### Model selection (evaluate.py lines 76-83) -/

inductive ModelKind where
  | spvnas_specialized
  | spvcnn
  | minkunet
deriving DecidableEq

/-- Python's `str.lower` on one character (the ASCII case, which covers
every model name the script accepts). -/
def py_lower_char (c : Char) : Char :=
  if 65 ≤ c.toNat ∧ c.toNat ≤ 90 then Char.ofNat (c.toNat + 32) else c

/-- Python's `args.name.lower()` as a character-list map. -/
def py_lower (s : List Char) : List Char := s.map py_lower_char

/-- Python's substring test `pat in s`: `pat` occurs contiguously in `s`. -/
def containsSub (pat s : List Char) : Bool :=
  decide (pat <:+: s)

/-- The `if 'spvnas' in args.name.lower(): ... elif ... else raise
NotImplementedError` chain; `none` is the raised error. -/
def modelFor (name : String) : Option ModelKind :=
  if containsSub "spvnas".data (py_lower name.data) then some ModelKind.spvnas_specialized
  else if containsSub "spvcnn".data (py_lower name.data) then some ModelKind.spvcnn
  else if containsSub "mink".data (py_lower name.data) then some ModelKind.minkunet
  else none

/-! ### Label packing (evaluate.py lines 145-148) -/

/-- NumPy `astype(np.uint32)`: reduction modulo `2 ^ 32`. -/
def U32 (n : Nat) : Nat := n % 2 ^ 32

/-- The packing `pred_eval = sem + (ins << 16)` on `np.uint32` values:
every intermediate wraps modulo `2 ^ 32`. -/
def encodeLabel (sem ins : Nat) : Nat :=
  (U32 sem + U32 (U32 ins * 2 ^ 16)) % 2 ^ 32

/-- Decoding described by the spec: low 16 bits are the semantic label,
high 16 bits the instance label. -/
def decodeLabel (w : Nat) : Nat × Nat :=
  (w % 2 ^ 16, w / 2 ^ 16 % 2 ^ 16)

/-! ### Dataloader construction (evaluate.py lines 62-74) -/

/-- `batch_size=configs.batch_size if split == 'train' else 1`. -/
def loader_batch_size (split : String) (configsBatchSize : Nat) : Nat :=
  if split = "train" then configsBatchSize else 1

/-- `shuffle=(split == 'train')` passed to the distributed sampler. -/
def sampler_shuffle (split : String) : Bool :=
  split == "train"

/-! ### The evaluation loop (evaluate.py lines 126-139)

`outF` is the list of model-output rows (`outputs`, one row of class
scores per voxel), `outC` the batch index of each voxel
(`inputs.C[:, -1]`), `invF` the inverse-map indices (`invs.F`) and `invC`
their batch indices (`invs.C[:, -1]`). -/

/-- NumPy boolean-mask indexing `rows[mask]`. -/
def maskSelect {α : Type} (rows : List α) (mask : List Bool) : List α :=
  (List.zip rows mask).filterMap (fun p => if p.2 then some p.1 else none)

/-- NumPy fancy integer indexing `rows[idxs]` (NumPy raises on an
out-of-range index; here it reads the default value, and theorems that
depend on row values carry in-range hypotheses). -/
def fancyIndex {α : Type} [Inhabited α] (rows : List α) (idxs : List Nat) : List α :=
  idxs.map (fun i => rows.getD i default)

/-- `argmax(1)` on one row: index of the first maximal score. -/
def argmax1 (l : List Int) : Nat :=
  (List.range l.length).foldl
    (fun best i => if l.getD best 0 < l.getD i 0 then i else best) 0

/-- `invs.C[:, -1].max()`. -/
def batchMax (invC : List Nat) : Nat := invC.foldl max 0

/-- `cur_inv = invs.F[invs.C[:, -1] == idx]`. -/
def cur_inv (invF invC : List Nat) (idx : Nat) : List Nat :=
  maskSelect invF (invC.map (fun b => b == idx))

/-- `outputs_mapped = outputs[cur_scene_pts][cur_inv].argmax(1)` where
`cur_scene_pts = (inputs.C[:, -1] == idx)`. -/
def outputs_mapped (outF : List (List Int)) (outC : List Nat)
    (invF invC : List Nat) (idx : Nat) : List Nat :=
  (fancyIndex (maskSelect outF (outC.map (fun b => b == idx)))
    (cur_inv invF invC idx)).map argmax1

/-- The whole loop `for idx in range(invs.C[:, -1].max() + 1)` followed by
`torch.cat(_outputs, 0)`. -/
def evalOutputs (outF : List (List Int)) (outC : List Nat)
    (invF invC : List Nat) : List Nat :=
  ((List.range (batchMax invC + 1)).map (outputs_mapped outF outC invF invC)).flatten

/-- Selection phrased as the spec phrases it: the rows whose coordinate
batch index equals `idx`, in order. -/
def specSelect {α : Type} (rows : List α) (batch : List Nat) (idx : Nat) : List α :=
  ((List.zip batch rows).filter (fun p => p.1 == idx)).map Prod.snd

/-- The spec's description of one scene's mapped prediction: gather the
scene's rows at the scene's inverse-map indices and take the argmax over
the class dimension. -/
def specScene (outF : List (List Int)) (outC : List Nat)
    (invF invC : List Nat) (idx : Nat) : List Nat :=
  (specSelect invF invC idx).map
    (fun i => argmax1 ((specSelect outF outC idx).getD i []))

/-! ### Label file contents (evaluate.py lines 145-148) -/

/-- `sem = outputs...astype(np.uint32); ins = np.zeros_like(sem);
pred_eval = sem + (ins << 16)`. -/
def pred_eval (sems : List Nat) : List Nat :=
  List.zipWith encodeLabel sems (sems.map (fun _ => 0))

/-- The 32-bit words written for one batch. -/
def writtenWords (outF : List (List Int)) (outC : List Nat)
    (invF invC : List Nat) : List Nat :=
  pred_eval (evalOutputs outF outC invF invC)

/-- `tofile`: each `np.uint32` contributes four little-endian bytes. -/
def labelFileBytes (ws : List Nat) : List Nat :=
  ws.flatMap (fun w => [w % 2 ^ 8, w / 2 ^ 8 % 2 ^ 8, w / 2 ^ 16 % 2 ^ 8, w / 2 ^ 24 % 2 ^ 8])

/-! ### Output path (evaluate.py lines 143-144) -/

/-- Python's `str.split(sep)` for a one-character separator: split at
every occurrence, keeping empty pieces. -/
def py_split (sep : Char) : List Char → List (List Char)
  | [] => [[]]
  | c :: rest =>
    match py_split sep rest with
    | [] => [[c]]
    | h :: t => if c = sep then [] :: h :: t else (c :: h) :: t

/-- Python's `str.replace(pat, rep)` on character lists, with explicit
fuel so that the recursion is structural: replace every non-overlapping
occurrence, scanning left to right.  A matched occurrence consumes
`pat.length` characters (`1` from the head plus `pat.length - 1` dropped),
so fuel `s.length` always suffices. -/
def replaceAllFuel (pat rep : List Char) : Nat → List Char → List Char
  | _, [] => []
  | 0, s => s
  | fuel + 1, c :: rest =>
    if pat ≠ [] ∧ List.isPrefixOf pat (c :: rest) = true then
      rep ++ replaceAllFuel pat rep fuel (List.drop (pat.length - 1) rest)
    else
      c :: replaceAllFuel pat rep fuel rest

/-- Python's `str.replace(pat, rep)`. -/
def replaceAll (pat rep s : List Char) : List Char :=
  replaceAllFuel pat rep s.length s

/-- `output_file_name = args.save_dir + "/" + abs_input_path[-3] + "/" +
abs_input_path[-1].replace('.bin', '.label')` where `abs_input_path` is
the input path split on `"/"`.  Python's negative indices `[-3]`, `[-1]`
(an `IndexError` when fewer than three components exist) are read as
`getD (length - 3)` and `getD (length - 1)`. -/
def output_file_name (saveDir fileName : String) : String :=
  let parts := py_split '/' fileName.data
  saveDir ++ "/" ++ String.mk (parts.getD (parts.length - 3) []) ++ "/" ++
    String.mk (replaceAll ".bin".data ".label".data
      (parts.getD (parts.length - 1) []))

/-- `feed_dict['file_name'][0]`: the first file name of the batch. -/
def batch_file_name (fileNames : List String) : String :=
  fileNames.getD 0 ""

/-- The output path used by one evaluation step. -/
def step_output_file (saveDir : String) (fileNames : List String) : String :=
  output_file_name saveDir (batch_file_name fileNames)

/-! ### Theorems for the easy claims -/

/-- C3 counterexample: the round trip fails at `sem = 2 ^ 16`
(the packed word `65536` decodes to `(0, 1)`). -/
theorem c3_roundtrip_counterexample :
    decodeLabel (encodeLabel 65536 0) ≠ (65536, 0) := by
  decide

/-- C3 (amended): for every `sem < 2 ^ 16` and `inst = 0`, decoding the
packed label `sem + (0 <<< 16)` returns `(sem, 0)`. -/
theorem c3_roundtrip (sem : Nat) (h : sem < 2 ^ 16) :
    decodeLabel (encodeLabel sem 0) = (sem, 0) := by
  unfold decodeLabel encodeLabel U32
  norm_num
  omega

/-- Witness for `c3_roundtrip` at `sem = 19`. -/
theorem c3_roundtrip_witness : decodeLabel (encodeLabel 19 0) = (19, 0) :=
  c3_roundtrip 19 (by decide)

/-- C5: the selection chain yields no model (raises `NotImplementedError`)
iff the lowercased name contains none of `"spvnas"`, `"spvcnn"`, `"mink"`;
and a name containing `"spvnas"` always selects `spvnas_specialized`. -/
theorem c5_model_selection (name : String) :
    (modelFor name = none ↔
      (containsSub "spvnas".data (py_lower name.data) = false ∧
       containsSub "spvcnn".data (py_lower name.data) = false ∧
       containsSub "mink".data (py_lower name.data) = false)) ∧
    (containsSub "spvnas".data (py_lower name.data) = true →
      modelFor name = some ModelKind.spvnas_specialized) := by
  refine ⟨?_, fun h1 => by simp [modelFor, h1]⟩
  by_cases h1 : containsSub "spvnas".data (py_lower name.data) <;>
    by_cases h2 : containsSub "spvcnn".data (py_lower name.data) <;>
      by_cases h3 : containsSub "mink".data (py_lower name.data) <;>
        simp [modelFor, h1, h2, h3]

/-- Witness for `c5_model_selection`: a name containing both `"spvnas"`
and `"mink"` selects `spvnas_specialized`. -/
theorem c5_model_selection_witness :
    modelFor "SPVNAS-mink@65GMACs" = some ModelKind.spvnas_specialized :=
  (c5_model_selection "SPVNAS-mink@65GMACs").2 (by decide)

/-! ### Directory-setup lemmas (claims C7 and C9) -/

lemma mem_ensure_dir_of_mem {fs : List String} {p q : String} (h : q ∈ fs) :
    q ∈ ensure_dir fs p := by
  unfold ensure_dir
  split
  · exact h
  · exact List.mem_append_left _ h

lemma mem_ensure_dir_self (fs : List String) (p : String) : p ∈ ensure_dir fs p := by
  unfold ensure_dir
  split
  · assumption
  · exact List.mem_append_right _ (List.mem_singleton.mpr rfl)

lemma mem_foldl_ensure {saveDir : String} {L : List Nat} {fs : List String}
    {q : String} (h : q ∈ fs) :
    q ∈ L.foldl (fun s j => ensure_dir s (seq_dir saveDir j)) fs := by
  induction L generalizing fs with
  | nil => exact h
  | cons a L ih =>
    simp only [List.foldl_cons]
    exact ih (mem_ensure_dir_of_mem h)

lemma seq_mem_foldl_ensure {saveDir : String} {L : List Nat} {fs : List String}
    {i : Nat} (h : i ∈ L) :
    seq_dir saveDir i ∈ L.foldl (fun s j => ensure_dir s (seq_dir saveDir j)) fs := by
  induction L generalizing fs with
  | nil => cases h
  | cons a L ih =>
    simp only [List.foldl_cons]
    rcases List.mem_cons.mp h with rfl | h2
    · exact mem_foldl_ensure (mem_ensure_dir_self _ _)
    · exact ih h2

lemma foldl_ensure_eq_of_mem {saveDir : String} {L : List Nat} {fs : List String}
    (h : ∀ i ∈ L, seq_dir saveDir i ∈ fs) :
    L.foldl (fun s j => ensure_dir s (seq_dir saveDir j)) fs = fs := by
  induction L with
  | nil => rfl
  | cons a L ih =>
    have ha : ensure_dir fs (seq_dir saveDir a) = fs := by
      unfold ensure_dir
      rw [if_pos (h a (List.mem_cons_self a L))]
    rw [List.foldl_cons, ha]
    exact ih (fun i hi => h i (List.mem_cons_of_mem _ hi))

lemma mem_foldl_ensure_cases {saveDir : String} {L : List Nat} {fs : List String}
    {p : String}
    (h : p ∈ L.foldl (fun s j => ensure_dir s (seq_dir saveDir j)) fs) :
    p ∈ fs ∨ ∃ i ∈ L, p = seq_dir saveDir i := by
  induction L generalizing fs with
  | nil => exact Or.inl h
  | cons a L ih =>
    simp only [List.foldl_cons] at h
    rcases ih h with h2 | ⟨i, hi, rfl⟩
    · unfold ensure_dir at h2
      split at h2
      · exact Or.inl h2
      · rcases List.mem_append.mp h2 with h3 | h3
        · exact Or.inl h3
        · exact Or.inr ⟨a, List.mem_cons_self a L, List.mem_singleton.mp h3⟩
    · exact Or.inr ⟨i, List.mem_cons_of_mem _ hi, rfl⟩

lemma string_append_left_cancel {s a b : String} (h : s ++ a = s ++ b) : a = b := by
  have h2 := congrArg String.data h
  simp [String.data_append] at h2
  exact String.ext h2

/-- C7: running the directory-setup loop a second time with the same
`save_dir` changes nothing — each of the eleven directories is created
only when absent, and after the first run all of them exist. -/
theorem c7_setup_idempotent (saveDir : String) (fs : List String) :
    setup_dirs saveDir (setup_dirs saveDir fs) = setup_dirs saveDir fs := by
  unfold setup_dirs
  exact foldl_ensure_eq_of_mem (fun i hi => seq_mem_foldl_ensure hi)

/-- C9: setup creates exactly the sequence directories `00` … `10` under
`save_dir`: those eleven paths all exist afterwards, every path added is
one of them, and a path `save_dir/d` for any other name `d` exists
afterwards only if it existed before. -/
theorem c9_created_directories (saveDir : String) (fs : List String) :
    ((List.range 11).map directory_name =
      ["00", "01", "02", "03", "04", "05", "06", "07", "08", "09", "10"]) ∧
    (∀ i, i < 11 → seq_dir saveDir i ∈ setup_dirs saveDir fs) ∧
    (∀ p, p ∈ setup_dirs saveDir fs →
      p ∈ fs ∨ ∃ i, i < 11 ∧ p = seq_dir saveDir i) ∧
    (∀ d : String, (∀ i, i < 11 → d ≠ directory_name i) →
      ((saveDir ++ "/" ++ d) ∈ setup_dirs saveDir fs ↔
        (saveDir ++ "/" ++ d) ∈ fs)) := by
  refine ⟨by decide, fun i hi => ?_, fun p hp => ?_, fun d hd => ⟨fun hmem => ?_, fun hmem => ?_⟩⟩
  · exact seq_mem_foldl_ensure (List.mem_range.mpr hi)
  · rcases mem_foldl_ensure_cases hp with h | ⟨i, hi, rfl⟩
    · exact Or.inl h
    · exact Or.inr ⟨i, List.mem_range.mp hi, rfl⟩
  · rcases mem_foldl_ensure_cases hmem with h | ⟨i, hi, heq⟩
    · exact h
    · exact absurd (string_append_left_cancel heq) (hd i (List.mem_range.mp hi))
  · exact mem_foldl_ensure hmem

/-- Witness for `c9_created_directories`: with an empty file system and
`save_dir = "out"`, the non-sequence path `out/11` is not created. -/
theorem c9_created_directories_witness :
    ("out" ++ "/" ++ "11") ∈ setup_dirs "out" [] ↔
      ("out" ++ "/" ++ "11") ∈ ([] : List String) :=
  (c9_created_directories "out" []).2.2.2 "11" (by decide)

/-- C10: every split other than `train` gets batch size `1` and a
non-shuffling sampler, the `train` split gets `configs.batch_size` and
shuffling, and the step's output file depends only on the first file name
of the batch. -/
theorem c10_loader_and_first_name (split : String) (cbs : Nat) (saveDir : String)
    (fns fns2 : List String) :
    (split ≠ "train" → loader_batch_size split cbs = 1 ∧ sampler_shuffle split = false) ∧
    (loader_batch_size "train" cbs = cbs ∧ sampler_shuffle "train" = true) ∧
    (batch_file_name fns = batch_file_name fns2 →
      step_output_file saveDir fns = step_output_file saveDir fns2) := by
  refine ⟨fun h => ⟨?_, ?_⟩, ⟨?_, ?_⟩, fun h => ?_⟩
  · simp [loader_batch_size, h]
  · simp [sampler_shuffle]
    exact h
  · simp [loader_batch_size]
  · rfl
  · unfold step_output_file
    rw [h]

/-- Witness for `c10_loader_and_first_name` at the `test` split. -/
theorem c10_loader_and_first_name_witness :
    loader_batch_size "test" 4 = 1 ∧ sampler_shuffle "test" = false :=
  (c10_loader_and_first_name "test" 4 "out" [] []).1 (by decide)

/-! ### Inverse-mapping lemmas (claim C1) -/

lemma maskSelect_cons {α : Type} (r : α) (rs : List α) (m : Bool) (ms : List Bool) :
    maskSelect (r :: rs) (m :: ms) =
      if m then r :: maskSelect rs ms else maskSelect rs ms := by
  unfold maskSelect
  rw [List.zip_cons_cons, List.filterMap_cons]
  cases m <;> simp

lemma specSelect_cons {α : Type} (r : α) (rs : List α) (b : Nat) (bs : List Nat)
    (idx : Nat) :
    specSelect (r :: rs) (b :: bs) idx =
      if (b == idx) then r :: specSelect rs bs idx else specSelect rs bs idx := by
  unfold specSelect
  rw [List.zip_cons_cons, List.filter_cons]
  by_cases hb : (b == idx) = true <;> simp [hb]

/-- Boolean-mask selection by an equality mask is exactly the spec's
"rows whose coordinate batch index equals `idx`". -/
lemma maskSelect_map_eq_specSelect {α : Type} (rows : List α) (batch : List Nat)
    (idx : Nat) :
    maskSelect rows (batch.map (fun b => b == idx)) = specSelect rows batch idx := by
  induction rows generalizing batch with
  | nil => cases batch <;> simp [maskSelect, specSelect]
  | cons r rs ih =>
    cases batch with
    | nil => simp [maskSelect, specSelect]
    | cons b bs => rw [List.map_cons, maskSelect_cons, specSelect_cons, ih]

/-- C1: for every scene index `idx` up to the largest batch index of the
inverse map, the mapped prediction is obtained by selecting the
model-output rows whose coordinate batch index equals `idx`, gathering
them at the scene's inverse-map indices and taking the per-row argmax;
and the loop concatenates the per-scene results in increasing scene
order. -/
theorem c1_inverse_mapping (outF : List (List Int)) (outC invF invC : List Nat) :
    (∀ idx, outputs_mapped outF outC invF invC idx = specScene outF outC invF invC idx) ∧
    evalOutputs outF outC invF invC =
      ((List.range (batchMax invC + 1)).map (specScene outF outC invF invC)).flatten := by
  have hmain : ∀ idx,
      outputs_mapped outF outC invF invC idx = specScene outF outC invF invC idx := by
    intro idx
    unfold outputs_mapped specScene cur_inv fancyIndex
    rw [maskSelect_map_eq_specSelect, maskSelect_map_eq_specSelect, List.map_map]
    rfl
  exact ⟨hmain, by unfold evalOutputs; rw [funext hmain]⟩

/-! ### Written-word lemmas (claims C2 and C8) -/

/-- With the zero instance array, the packed words are just the semantic
values reduced to 32 bits. -/
lemma pred_eval_eq_map (sems : List Nat) :
    pred_eval sems = sems.map (fun s => encodeLabel s 0) := by
  unfold pred_eval
  rw [List.zipWith_map_right, List.zipWith_same]

lemma encodeLabel_zero (s : Nat) : encodeLabel s 0 = U32 s := by
  unfold encodeLabel U32
  have h32 : (2 : Nat) ^ 32 = 4294967296 := by norm_num
  rw [h32]
  omega

lemma writtenWords_getD (outF : List (List Int)) (outC invF invC : List Nat)
    (k : Nat) (hk : k < (writtenWords outF outC invF invC).length) :
    (writtenWords outF outC invF invC).getD k 0 =
      U32 ((evalOutputs outF outC invF invC).getD k 0) := by
  unfold writtenWords at hk ⊢
  rw [pred_eval_eq_map] at hk ⊢
  rw [List.length_map] at hk
  rw [List.getD_eq_getElem _ _ (by rw [List.length_map]; exact hk),
    List.getElem_map, List.getD_eq_getElem _ _ hk, encodeLabel_zero]

/-- C2: the word written for point `k` is
`semantic ||| (instance <<< 16)` computed on `np.uint32` values, where the
semantic value is the predicted class of the point and the instance value
is the one the code supplies (`np.zeros_like`, i.e. `0`). -/
theorem c2_written_word (outF : List (List Int)) (outC invF invC : List Nat)
    (k : Nat) (hk : k < (writtenWords outF outC invF invC).length) :
    (writtenWords outF outC invF invC).getD k 0 =
      Nat.lor (U32 ((evalOutputs outF outC invF invC).getD k 0))
        (U32 (Nat.shiftLeft (U32 0) 16)) := by
  rw [writtenWords_getD outF outC invF invC k hk]
  have hz : U32 (Nat.shiftLeft (U32 0) 16) = 0 := by
    unfold U32
    norm_num
  rw [hz]
  exact (Nat.or_zero _).symm

/-- Witness for `c2_written_word` on a two-scene batch (three voxels, two
classes, three original points). -/
theorem c2_written_word_witness :
    (writtenWords [[0, 5], [7, 1], [2, 3]] [0, 0, 1] [1, 0, 0] [0, 0, 1]).getD 1 0 =
      Nat.lor (U32 ((evalOutputs [[0, 5], [7, 1], [2, 3]] [0, 0, 1] [1, 0, 0] [0, 0, 1]).getD 1 0))
        (U32 (Nat.shiftLeft (U32 0) 16)) :=
  c2_written_word [[0, 5], [7, 1], [2, 3]] [0, 0, 1] [1, 0, 0] [0, 0, 1] 1 (by decide)

lemma foldl_argmax_choice (l : List Int) (L : List Nat) (acc : Nat) :
    L.foldl (fun best i => if l.getD best 0 < l.getD i 0 then i else best) acc = acc ∨
    L.foldl (fun best i => if l.getD best 0 < l.getD i 0 then i else best) acc ∈ L := by
  induction L generalizing acc with
  | nil => exact Or.inl rfl
  | cons a L ih =>
    simp only [List.foldl_cons]
    rcases ih (if l.getD acc 0 < l.getD a 0 then a else acc) with h | h
    · rw [h]
      split
      · exact Or.inr (List.mem_cons_self _ _)
      · exact Or.inl rfl
    · exact Or.inr (List.mem_cons_of_mem _ h)

/-- The argmax index is `0` (for an empty row) or a valid row position. -/
lemma argmax1_bound (l : List Int) : argmax1 l = 0 ∨ argmax1 l < l.length := by
  unfold argmax1
  rcases foldl_argmax_choice l (List.range l.length) 0 with h | h
  · exact Or.inl h
  · exact Or.inr (List.mem_range.mp h)

lemma mem_maskSelect {α : Type} {rows : List α} {mask : List Bool} {x : α}
    (h : x ∈ maskSelect rows mask) : x ∈ rows := by
  unfold maskSelect at h
  rcases List.mem_filterMap.mp h with ⟨⟨a, m⟩, hmem, hab⟩
  cases m with
  | false => simp at hab
  | true =>
    simp only [if_true] at hab
    cases hab
    exact (List.of_mem_zip hmem).1

/-- Every entry of the concatenated prediction vector is the argmax of a
model-output row (or of the default empty row when an inverse-map index
is out of range). -/
lemma mem_evalOutputs {outF : List (List Int)} {outC invF invC : List Nat} {x : Nat}
    (h : x ∈ evalOutputs outF outC invF invC) :
    ∃ l : List Int, (l ∈ outF ∨ l = []) ∧ x = argmax1 l := by
  unfold evalOutputs at h
  rcases List.mem_flatten.mp h with ⟨scene, hscene, hx⟩
  rcases List.mem_map.mp hscene with ⟨idx, hidx, rfl⟩
  unfold outputs_mapped at hx
  rcases List.mem_map.mp hx with ⟨row, hrow, rfl⟩
  unfold fancyIndex at hrow
  rcases List.mem_map.mp hrow with ⟨i, hi, rfl⟩
  by_cases hlt : i < (maskSelect outF (outC.map (fun b => b == idx))).length
  · refine ⟨_, Or.inl ?_, rfl⟩
    rw [List.getD_eq_getElem _ _ hlt]
    exact mem_maskSelect (List.getElem_mem _)
  · refine ⟨[], Or.inr rfl, ?_⟩
    rw [List.getD_eq_default _ _ (Nat.le_of_not_lt hlt)]
    rfl

/-- C8: when every model-output row has at most `2 ^ 16` classes (the
SemanticKITTI configuration has 19), each written word has its upper 16
bits zero — the instance array is unconditionally zero — and therefore
equals the predicted semantic class index of its point. -/
theorem c8_upper_half_zero (outF : List (List Int)) (outC invF invC : List Nat)
    (hcls : ∀ row ∈ outF, row.length ≤ 2 ^ 16)
    (k : Nat) (hk : k < (writtenWords outF outC invF invC).length) :
    Nat.shiftRight ((writtenWords outF outC invF invC).getD k 0) 16 = 0 ∧
    (writtenWords outF outC invF invC).getD k 0 =
      (evalOutputs outF outC invF invC).getD k 0 := by
  have hksem : k < (evalOutputs outF outC invF invC).length := by
    unfold writtenWords at hk
    rw [pred_eval_eq_map, List.length_map] at hk
    exact hk
  have hmem : (evalOutputs outF outC invF invC).getD k 0 ∈
      evalOutputs outF outC invF invC := by
    rw [List.getD_eq_getElem _ _ hksem]
    exact List.getElem_mem _
  rcases mem_evalOutputs hmem with ⟨l, hl, heq⟩
  have hlen16 : l.length ≤ 2 ^ 16 := by
    rcases hl with hl | rfl
    · exact hcls l hl
    · simp
  have hsem_lt : (evalOutputs outF outC invF invC).getD k 0 < 2 ^ 16 := by
    rw [heq]
    rcases argmax1_bound l with h0 | hlt
    · rw [h0]
      norm_num
    · exact lt_of_lt_of_le hlt hlen16
  have hword : (writtenWords outF outC invF invC).getD k 0 =
      (evalOutputs outF outC invF invC).getD k 0 := by
    rw [writtenWords_getD outF outC invF invC k hk]
    unfold U32
    exact Nat.mod_eq_of_lt (lt_trans hsem_lt (by norm_num))
  refine ⟨?_, hword⟩
  rw [hword]
  have hdiv : Nat.shiftRight ((evalOutputs outF outC invF invC).getD k 0) 16 =
      (evalOutputs outF outC invF invC).getD k 0 / 2 ^ 16 :=
    Nat.shiftRight_eq_div_pow _ _
  rw [hdiv]
  exact Nat.div_eq_of_lt hsem_lt

/-- Witness for `c8_upper_half_zero` on the two-scene batch. -/
theorem c8_upper_half_zero_witness :
    Nat.shiftRight ((writtenWords [[0, 5], [7, 1], [2, 3]] [0, 0, 1] [1, 0, 0] [0, 0, 1]).getD 0 0) 16 = 0 ∧
    (writtenWords [[0, 5], [7, 1], [2, 3]] [0, 0, 1] [1, 0, 0] [0, 0, 1]).getD 0 0 =
      (evalOutputs [[0, 5], [7, 1], [2, 3]] [0, 0, 1] [1, 0, 0] [0, 0, 1]).getD 0 0 :=
  c8_upper_half_zero [[0, 5], [7, 1], [2, 3]] [0, 0, 1] [1, 0, 0] [0, 0, 1]
    (by decide) 0 (by decide)

/-! ### Byte-count lemmas (claim C4) -/

lemma length_labelFileBytes (ws : List Nat) :
    (labelFileBytes ws).length = 4 * ws.length := by
  unfold labelFileBytes
  induction ws with
  | nil => rfl
  | cons w ws ih =>
    simp only [List.flatMap_cons, List.length_append, ih, List.length_cons,
      List.length_nil]
    omega

lemma length_specSelect {α : Type} (rows : List α) (batch : List Nat) (idx : Nat)
    (hlen : rows.length = batch.length) :
    (specSelect rows batch idx).length = batch.countP (fun b => b == idx) := by
  induction batch generalizing rows with
  | nil =>
    cases rows with
    | nil => simp [specSelect]
    | cons r rs => simp at hlen
  | cons b bs ih =>
    cases rows with
    | nil => simp at hlen
    | cons r rs =>
      have hlen2 : rs.length = bs.length := by simpa using hlen
      rw [specSelect_cons]
      rcases Bool.eq_false_or_eq_true (b == idx) with hb | hb <;>
        simp [hb, ih rs hlen2, List.countP_cons]

lemma sum_map_add (n : Nat) (f g : Nat → Nat) :
    ((List.range n).map (fun i => f i + g i)).sum =
      ((List.range n).map f).sum + ((List.range n).map g).sum := by
  induction n with
  | zero => rfl
  | succ n ih =>
    rw [List.range_succ]
    simp only [List.map_append, List.sum_append, ih, List.map_cons, List.map_nil,
      List.sum_cons, List.sum_nil]
    omega

lemma sum_indicator_range (a n : Nat) (h : a < n) :
    ((List.range n).map (fun idx => if (a == idx) = true then 1 else 0)).sum = 1 := by
  induction n with
  | zero => omega
  | succ n ih =>
    rw [List.range_succ, List.map_append, List.sum_append]
    by_cases ha : a = n
    · subst ha
      have hzero :
          ((List.range a).map (fun idx => if (a == idx) = true then 1 else 0)).sum = 0 := by
        apply List.sum_eq_zero
        intro x hx
        rcases List.mem_map.mp hx with ⟨idx, hidx, rfl⟩
        have hne : a ≠ idx := by
          have := List.mem_range.mp hidx
          omega
        simp [hne]
      rw [hzero]
      simp
    · have ha2 : a < n := by omega
      rw [ih ha2]
      simp [ha]

lemma le_foldl_max (l : List Nat) (acc : Nat) : acc ≤ l.foldl max acc := by
  induction l generalizing acc with
  | nil => exact Nat.le_refl acc
  | cons a l ih =>
    simp only [List.foldl_cons]
    exact le_trans (Nat.le_max_left acc a) (ih (max acc a))

lemma mem_le_foldl_max {x : Nat} {l : List Nat} (acc : Nat) (h : x ∈ l) :
    x ≤ l.foldl max acc := by
  induction l generalizing acc with
  | nil => cases h
  | cons a l ih =>
    simp only [List.foldl_cons]
    rcases List.mem_cons.mp h with rfl | h2
    · exact le_trans (Nat.le_max_right acc x) (le_foldl_max l (max acc x))
    · exact ih _ h2

/-- Every batch index occurs among `0 … batchMax`, so counting per scene
and summing recovers the total number of inverse-map entries. -/
lemma sum_countP_range (l : List Nat) (n : Nat) (h : ∀ x ∈ l, x < n) :
    ((List.range n).map (fun idx => l.countP (fun b => b == idx))).sum = l.length := by
  induction l with
  | nil => simp
  | cons a l ih =>
    have ih2 := ih (fun x hx => h x (List.mem_cons_of_mem _ hx))
    have ha : a < n := h a (List.mem_cons_self _ _)
    simp only [List.countP_cons]
    rw [sum_map_add, ih2, sum_indicator_range a n ha, List.length_cons]

lemma length_evalOutputs (outF : List (List Int)) (outC invF invC : List Nat)
    (hlen : invF.length = invC.length) :
    (evalOutputs outF outC invF invC).length = invF.length := by
  unfold evalOutputs
  rw [List.length_flatten, List.map_map]
  have hmap : (List.range (batchMax invC + 1)).map
      (List.length ∘ outputs_mapped outF outC invF invC) =
      (List.range (batchMax invC + 1)).map
        (fun idx => invC.countP (fun b => b == idx)) := by
    apply List.map_congr_left
    intro idx _
    show (outputs_mapped outF outC invF invC idx).length = _
    unfold outputs_mapped fancyIndex cur_inv
    rw [List.length_map, List.length_map, maskSelect_map_eq_specSelect]
    exact length_specSelect invF invC idx hlen
  have hbound : ∀ x ∈ invC, x < batchMax invC + 1 := by
    intro x hx
    exact Nat.lt_succ_of_le (mem_le_foldl_max 0 hx)
  rw [hmap, sum_countP_range invC (batchMax invC + 1) hbound]
  exact hlen.symm

/-- C4: the `.label` file holds exactly four bytes per entry of the
batch's inverse map — one 32-bit word per original dense point. -/
theorem c4_byte_count (outF : List (List Int)) (outC invF invC : List Nat)
    (hlen : invF.length = invC.length) :
    (labelFileBytes (writtenWords outF outC invF invC)).length = 4 * invF.length := by
  rw [length_labelFileBytes]
  have hww : (writtenWords outF outC invF invC).length =
      (evalOutputs outF outC invF invC).length := by
    unfold writtenWords
    rw [pred_eval_eq_map, List.length_map]
  rw [hww, length_evalOutputs outF outC invF invC hlen]

/-- Witness for `c4_byte_count`: three inverse-map entries give twelve
bytes. -/
theorem c4_byte_count_witness :
    (labelFileBytes (writtenWords [[0, 5], [7, 1], [2, 3]] [0, 0, 1] [1, 0, 0] [0, 0, 1])).length =
      4 * ([1, 0, 0] : List Nat).length :=
  c4_byte_count [[0, 5], [7, 1], [2, 3]] [0, 0, 1] [1, 0, 0] [0, 0, 1] rfl

/-! ### Output-path lemmas (claim C6) -/

lemma replaceAllFuel_nil (pat rep : List Char) (fuel : Nat) :
    replaceAllFuel pat rep fuel [] = [] := by
  cases fuel <;> rfl

lemma replaceAllFuel_cons (pat rep : List Char) (fuel : Nat) (c : Char)
    (rest : List Char) :
    replaceAllFuel pat rep (fuel + 1) (c :: rest) =
      if pat ≠ [] ∧ List.isPrefixOf pat (c :: rest) = true then
        rep ++ replaceAllFuel pat rep fuel (List.drop (pat.length - 1) rest)
      else
        c :: replaceAllFuel pat rep fuel rest := rfl

/-- Replacing `pat` in `stem ++ pat` when no occurrence of `pat` starts
before the final one (no occurrence of `pat` inside
`stem ++ pat.dropLast`) rewrites exactly the suffix. -/
lemma replaceAllFuel_append_pat (pat rep : List Char) (hne : pat ≠ []) :
    ∀ (stem : List Char) (fuel : Nat), (stem ++ pat).length ≤ fuel →
      ¬ (pat <:+: stem ++ pat.dropLast) →
      replaceAllFuel pat rep fuel (stem ++ pat) = stem ++ rep := by
  intro stem
  induction stem with
  | nil =>
    intro fuel hfuel hno
    cases pat with
    | nil => exact absurd rfl hne
    | cons p ps =>
      cases fuel with
      | zero => simp at hfuel
      | succ f =>
        rw [List.nil_append, replaceAllFuel_cons]
        rw [if_pos ⟨by simp, List.isPrefixOf_iff_prefix.mpr (List.prefix_refl _)⟩]
        rw [List.length_cons, Nat.add_sub_cancel, List.drop_length,
          replaceAllFuel_nil, List.append_nil, List.nil_append]
  | cons a stem ih =>
    intro fuel hfuel hno
    cases fuel with
    | zero =>
      simp only [List.length_append, List.length_cons] at hfuel
      omega
    | succ f =>
      rw [List.cons_append, replaceAllFuel_cons]
      have hpre : ¬ (List.isPrefixOf pat (a :: (stem ++ pat)) = true) := by
        rw [ List.isPrefixOf_iff_prefix]
        intro hp
        apply hno
        have hdp := List.dropLast_prefix pat
        rcases hdp with ⟨t, ht⟩
        have hsub : (a :: stem) ++ pat.dropLast <+: (a :: stem) ++ pat :=
          ⟨t, by rw [List.append_assoc, ht]⟩
        have hpat1 : 1 ≤ pat.length :=
          Nat.pos_of_ne_zero (fun h0 => hne (List.length_eq_zero.mp h0))
        have hlen2 : pat.length ≤ ((a :: stem) ++ pat.dropLast).length := by
          simp only [List.length_append, List.length_cons, List.length_dropLast]
          omega
        have hp2 : pat <+: (a :: stem) ++ pat := hp
        exact List.IsPrefix.isInfix
          (List.prefix_of_prefix_length_le hp2 hsub hlen2)
      rw [if_neg (fun hand => hpre hand.2)]
      have hfuel2 : (stem ++ pat).length ≤ f := by
        simp only [List.length_append, List.length_cons] at hfuel
        simp only [List.length_append]
        omega
      have hno2 : ¬ (pat <:+: stem ++ pat.dropLast) := by
        intro hinf
        exact hno
          (List.IsInfix.trans hinf
            (List.IsSuffix.isInfix (List.suffix_cons a (stem ++ pat.dropLast))))
      rw [ih f hfuel2 hno2]
      rfl

lemma replaceAll_append_pat (pat rep stem : List Char) (hne : pat ≠ [])
    (hno : ¬ (pat <:+: stem ++ pat.dropLast)) :
    replaceAll pat rep (stem ++ pat) = stem ++ rep :=
  replaceAllFuel_append_pat pat rep hne stem (stem ++ pat).length (Nat.le_refl _) hno

/-- C6 counterexample: for an input whose base name contains `".bin"`
twice, the script does not replace only the `.bin` suffix — Python's
`str.replace` rewrites every occurrence. -/
theorem c6_output_path_counterexample :
    output_file_name "out" "data/08/velodyne/0.bin.bin" ≠
      "out" ++ "/" ++ "08" ++ "/" ++ ("0.bin" ++ ".label") ∧
    output_file_name "out" "data/08/velodyne/0.bin.bin" = "out/08/0.label.label" := by
  constructor <;> decide

/-- C6 (amended): the output path is
`save_dir / parts[-3] / parts[-1]` with every occurrence of `".bin"` in
`parts[-1]` replaced by `".label"`; when `".bin"` occurs in the base name
only as its suffix (no occurrence starts earlier), this is exactly the
base name with the `.bin` suffix replaced by `.label`. -/
theorem c6_output_path (saveDir fileName : String) (stem : List Char)
    (_h3 : 3 ≤ (py_split '/' fileName.data).length)
    (hbase : (py_split '/' fileName.data).getD
        ((py_split '/' fileName.data).length - 1) [] = stem ++ ".bin".data)
    (hno : ¬ (".bin".data <:+: stem ++ (".bin".data.dropLast))) :
    output_file_name saveDir fileName =
      saveDir ++ "/" ++
        String.mk ((py_split '/' fileName.data).getD
          ((py_split '/' fileName.data).length - 3) []) ++
        "/" ++ (String.mk stem ++ ".label") := by
  unfold output_file_name
  dsimp only
  rw [hbase]
  rw [replaceAll_append_pat _ _ _ (by decide) hno]
  have hmk : String.mk (stem ++ ".label".data) = String.mk stem ++ ".label" := by
    apply String.ext
    simp [String.data_append]
  rw [hmk]

/-- Witness for `c6_output_path` on a standard SemanticKITTI path. -/
theorem c6_output_path_witness :
    output_file_name "out" "dataset/sequences/08/velodyne/000123.bin" =
      "out" ++ "/" ++
        String.mk ((py_split '/' "dataset/sequences/08/velodyne/000123.bin".data).getD
          ((py_split '/' "dataset/sequences/08/velodyne/000123.bin".data).length - 3) []) ++
        "/" ++ (String.mk "000123".data ++ ".label") :=
  c6_output_path "out" "dataset/sequences/08/velodyne/000123.bin" "000123".data
    (by decide) (by decide) (by decide)

end SpvnasEval
